import Mathlib

/-!
Verification of the TX downloader (`tx_downloader.py`) against its
natural-language specification.

The development shallowly embeds the two algorithmic cores of the source:

* `resample_ticks_to_1min_kbars` — the tick-to-1-minute-bar aggregator
  (static method `TXFDownloader.resample_ticks_to_1min_kbars`);
* the contract-segmentation planning phase and the day-by-day download
  loop of `TXFDownloader.fetch_continuous_data`.

Calendar dates are embedded as natural-number day indices (`timedelta(days=1)`
becomes `+ 1`); tick timestamps are embedded as natural-number nanosecond
instants, matching the nanosecond epoch values the source feeds to
`pd.to_datetime`.
-/

/-- Nanoseconds per minute: the width of one resampling bucket
(`resample('1Min')` in the source). -/
def nsPerMin : Nat := 60000000000

/-- One row of the tick DataFrame the source builds from `ticks`
(`pd.DataFrame({**ticks})`): a `ts` nanosecond timestamp, a traded price
in the `close` column, and a `volume`.  Prices are embedded as integers
(the source test data uses integral prices; nothing below depends on the
price carrier beyond its linear order). -/
structure TickRow where
  ts : Nat
  close : Int
  volume : Nat
deriving DecidableEq

/-- One row of the k-bar DataFrame produced by
`resample_ticks_to_1min_kbars`: the minute-aligned bucket timestamp
(restored to a column by `reset_index`) and the five aggregate columns,
in the source's renaming order `['Close', 'Volume', 'Open', 'High', 'Low']`. -/
structure KBarRow where
  ts : Nat
  Close : Int
  Volume : Nat
  Open : Int
  High : Int
  Low : Int
deriving DecidableEq

/-- Truncating a nanosecond timestamp down to its minute bucket, as
`resample('1Min')` keys each row. -/
def minuteBucket (t : Nat) : Nat := t / nsPerMin

/-- Stable insertion of a tick into a ts-sorted list: the new tick goes in
front of every already-present tick whose timestamp is not strictly smaller,
so a tick that arrived earlier precedes equal-timestamp ticks that arrived
later. -/
def insertTick (t : TickRow) : List TickRow → List TickRow
  | [] => [t]
  | u :: us => if u.ts < t.ts then u :: insertTick t us else t :: u :: us

/-- Stable sort of the tick rows by timestamp.  `resample` sorts a
non-monotonic DatetimeIndex stably before binning (pandas
`Grouper._set_grouper` is invoked with `sort=True` by the resampler and
uses an `argsort(kind="mergesort")` when the index is not monotonic); a
stable sort by a fixed key is unique as a function, so this insertion sort
computes the same permutation. -/
def sortTicks : List TickRow → List TickRow
  | [] => []
  | t :: ts => insertTick t (sortTicks ts)

/-- The `'close': 'last'` aggregate over a bucket, seeded with the first
row's price: the price of the last row of the bucket. -/
def lastClose (c : Int) : List TickRow → Int
  | [] => c
  | t :: ts => lastClose t.close ts

/-- The `'price_for_ohlc': 'max'` aggregate (the `High` column). -/
def highClose (c : Int) : List TickRow → Int
  | [] => c
  | t :: ts => highClose (max c t.close) ts

/-- The `'price_for_ohlc': 'min'` aggregate (the `Low` column). -/
def lowClose (c : Int) : List TickRow → Int
  | [] => c
  | t :: ts => lowClose (min c t.close) ts

/-- The `'volume': 'sum'` aggregate. -/
def sumVolume : List TickRow → Nat
  | [] => 0
  | t :: ts => t.volume + sumVolume ts

/-- Last element of a nonempty tick list (head passed separately). -/
def lastTick (t : TickRow) : List TickRow → TickRow
  | [] => t
  | u :: us => lastTick u us

/-- Aggregating the rows of one minute bin.  An empty bin yields `none`:
its `('price_for_ohlc', 'first')` entry is NaN and the source's
`.dropna(subset=[('price_for_ohlc', 'first')])` removes the bin.  A
nonempty bin yields the OHLCV row: `Open` is the bin's first price
(`'first'`), `Close` its last (`'last'`), `High`/`Low` the max/min, and
`Volume` the sum of volumes. -/
def binBar (b : Nat) : List TickRow → Option KBarRow
  | [] => none
  | t :: rest => some
      { ts := b * nsPerMin
        Close := lastClose t.close rest
        Volume := t.volume + sumVolume rest
        Open := t.close
        High := highClose t.close rest
        Low := lowClose t.close rest }

/-- The list of minute bins `resample('1Min')` generates: every minute from
the floor-minute of the earliest timestamp through the floor-minute of the
latest, inclusive.  The head and last of the (sorted) row list realise the
index min and max. -/
def bucketRange (t : TickRow) (rest : List TickRow) : List Nat :=
  List.range' (minuteBucket t.ts) (minuteBucket (lastTick t rest).ts + 1 - minuteBucket t.ts)

/-- Shallow embedding of `TXFDownloader.resample_ticks_to_1min_kbars`
acting on the rows of the tick DataFrame.  `None`/empty input returns
`none`; otherwise the rows are stably time-sorted (see `sortTicks`),
binned into the generated minute range, aggregated per bin, and empty bins
are dropped, in ascending bin order. -/
def resample_ticks_to_1min_kbars (ticks : List TickRow) : Option (List KBarRow) :=
  match sortTicks ticks with
  | [] => none
  | t :: rest =>
    some ((bucketRange t rest).filterMap
      (fun b => binBar b ((t :: rest).filter (fun u => minuteBucket u.ts == b))))

/-- Nanosecond instant for hour/minute/second clock times on the test day
(offset from the day's midnight; only minute alignment matters to the
aggregation). -/
def clockNs (h m s : Nat) : Nat := (h * 3600 + m * 60 + s) * 1000000000

/-- The four ticks of the spec's worked aggregation example (also the unit
test `test_resample_ticks_to_1min_kbars_normal`). -/
def c5Ticks : List TickRow :=
  [ { ts := clockNs 9 1 10, close := 100, volume := 10 }
  , { ts := clockNs 9 1 25, close := 120, volume := 5 }
  , { ts := clockNs 9 1 50, close := 110, volume := 8 }
  , { ts := clockNs 9 2 5, close := 115, volume := 20 } ]

/-- The worked example's ticks delivered out of timestamp order, with an
equal-timestamp pair to exercise stability. -/
def unsortedTicks : List TickRow :=
  [ { ts := clockNs 9 2 5, close := 115, volume := 20 }
  , { ts := clockNs 9 1 25, close := 120, volume := 5 }
  , { ts := clockNs 9 1 25, close := 121, volume := 2 }
  , { ts := clockNs 9 1 10, close := 100, volume := 10 } ]

/-- C5: on the worked example `[(09:01:10, 100, 10), (09:01:25, 120, 5),
(09:01:50, 110, 8), (09:02:05, 115, 20)]`, `resample_ticks_to_1min_kbars`
returns exactly two bars: the 09:01 bar with Open 100, High 120, Low 100,
Close 110, Volume 23, and the 09:02 bar with all prices 115 and Volume 20. -/
theorem resample_worked_example :
    resample_ticks_to_1min_kbars c5Ticks = some
      [ { ts := clockNs 9 1 0, Close := 110, Volume := 23, Open := 100, High := 120, Low := 100 }
      , { ts := clockNs 9 2 0, Close := 115, Volume := 20, Open := 115, High := 115, Low := 115 } ] := by
  decide

/-- The tick DataFrame as the source handles it statefully.  `useTsIndex`
records whether `ts` is a plain column (`false`, as delivered by
`pd.DataFrame({**ticks})`, whose index is a default RangeIndex) or has
been made the index by `set_index('ts', inplace=True)` (`true`).
`price_for_ohlc` is the helper column the source adds; input frames do not
have it.  The `pd.to_datetime` step reinterprets the `ts` numbers as
nanosecond instants without changing them, so the values are shared by
both states. -/
structure TicksDF where
  useTsIndex : Bool
  ts : List Nat
  close : List Int
  volume : List Nat
  price_for_ohlc : Option (List Int)
deriving DecidableEq

/-- The rows of a tick DataFrame, pairing up the columns positionally. -/
def rowsOf (df : TicksDF) : List TickRow :=
  List.zipWith (fun (p : Nat × Int) v => { ts := p.1, close := p.2, volume := v })
    (List.zip df.ts df.close) df.volume

/-- `TXFDownloader.resample_ticks_to_1min_kbars` with its in-place effect
on the caller's DataFrame made explicit.  An empty frame is returned
untouched together with `None` (the source returns before mutating);
otherwise the source executes, in place on its argument,
`ticks_df['ts'] = pd.to_datetime(ticks_df['ts'])`,
`ticks_df.set_index('ts', inplace=True)` and
`ticks_df['price_for_ohlc'] = ticks_df['close']`, and the returned bars
are those of `resample_ticks_to_1min_kbars` on the frame's rows. -/
def resample_df (df : TicksDF) : TicksDF × Option (List KBarRow) :=
  if df.ts.isEmpty then (df, none)
  else ({ df with useTsIndex := true, price_for_ohlc := some df.close },
        resample_ticks_to_1min_kbars (rowsOf df))

/-- A concrete one-row tick frame, fresh from the remote call: `ts` still
a column, no `price_for_ohlc`. -/
def oneRowDF : TicksDF :=
  { useTsIndex := false, ts := [0], close := [100], volume := [1], price_for_ohlc := none }

/-- One futures contract from the brokerage catalog, as
`fetch_continuous_data` uses it: its `code` string and its delivery date
(a calendar-day index; the source's `"%Y/%m/%d"` strings are ordered
exactly as their dates are). -/
structure Contract where
  code : String
  delivery_date : Nat
deriving DecidableEq

/-- The last two characters of a string, as Python's `code[-2:]` (the
whole string when it is shorter than two characters). -/
def lastTwo (s : String) : String := String.mk (s.data.drop (s.data.length - 2))

/-- The source's regular-contract filter:
`c.code[-2:] not in ["R1", "R2"]` (spread contracts carry an `R1`/`R2`
suffix). -/
def isRegular (c : Contract) : Bool :=
  !(lastTwo c.code == "R1" || lastTwo c.code == "R2")

/-- Stable insertion by delivery date (Python's `sorted` is stable). -/
def insertByDelivery (c : Contract) : List Contract → List Contract
  | [] => [c]
  | d :: ds =>
    if d.delivery_date < c.delivery_date then d :: insertByDelivery c ds else c :: d :: ds

/-- `sorted(..., key=lambda c: c.delivery_date)` on the filtered catalog. -/
def sortByDelivery : List Contract → List Contract
  | [] => []
  | c :: cs => insertByDelivery c (sortByDelivery cs)

/-- One entry of `query_plan`: the contract (kept by its code) and the
inclusive effective date range the loop will download for it. -/
structure QuerySegment where
  code : String
  range_start : Nat
  range_end : Nat
deriving DecidableEq

/-- Insertion into `query_plan`, a Python dict keyed by contract code:
an existing key is overwritten in place, a new key is appended. -/
def upsertSegment (plan : List QuerySegment) (seg : QuerySegment) : List QuerySegment :=
  if plan.any (fun q => q.code == seg.code)
  then plan.map (fun q => if q.code == seg.code then seg else q)
  else plan ++ [seg]

/-- The planning walk of `fetch_continuous_data`, from the first contract
whose delivery date is on or after the requested start.  `rstart` is the
segment's raw `range_start`: the requested start for the first contract,
the previous contract's delivery date plus one day afterwards.  A segment
is recorded when its clamped range `[max s rstart, min e delivery]` is
nonempty, and the walk breaks after the first contract whose delivery date
reaches the requested end. -/
def planWalk (s e : Nat) : List Contract → Nat → List QuerySegment → List QuerySegment
  | [], _, plan => plan
  | c :: rest, rstart, plan =>
    let effStart := max s rstart
    let effEnd := min e c.delivery_date
    let plan' := if effStart ≤ effEnd then upsertSegment plan ⟨c.code, effStart, effEnd⟩ else plan
    if e ≤ c.delivery_date then plan'
    else planWalk s e rest (c.delivery_date + 1) plan'

/-- The planning phase of `fetch_continuous_data`: filter the catalog to
regular contracts and sort by delivery date (`none` if empty), locate the
first contract with `delivery_date ≥ start` (`none` if there is none —
both `none`s are the source's error returns), then walk out the query
plan. -/
def buildQueryPlan (contracts : List Contract) (s e : Nat) : Option (List QuerySegment) :=
  if (sortByDelivery (contracts.filter isRegular)).isEmpty then none
  else
    match (sortByDelivery (contracts.filter isRegular)).dropWhile
        (fun c => decide (c.delivery_date < s)) with
    | [] => none
    | c :: rest => some (planWalk s e (c :: rest) s [])

/-- Adjacent segments of a plan meet with no gap and no overlap: each
segment's `range_end` is exactly one day before the next `range_start`. -/
def contiguous : List QuerySegment → Bool
  | [] => true
  | [_] => true
  | a :: b :: rest => (a.range_end + 1 == b.range_start) && contiguous (b :: rest)

/-- Day `d` lies in some segment's inclusive range. -/
def coversDay (segs : List QuerySegment) (d : Nat) : Bool :=
  segs.any (fun q => decide (q.range_start ≤ d) && decide (d ≤ q.range_end))

/-- `range_start` of the first segment (0 for an empty plan). -/
def headStart : List QuerySegment → Nat
  | [] => 0
  | q :: _ => q.range_start

/-- `range_end` of the last segment (0 for an empty plan). -/
def lastEndOf : List QuerySegment → Nat
  | [] => 0
  | [q] => q.range_end
  | _ :: q :: rest => lastEndOf (q :: rest)

/-- Outcome of the source's per-day fetch attempt, instrumented with how
many times the remote tick call and the login capability were invoked. -/
structure DayAttempt where
  calls : Nat
  relogins : Nat
  result : Option (List TickRow)
deriving DecidableEq

/-- The body of the download loop for one day, from the source:

    try:
        ticks = self.api.ticks(contract=..., date=..., ...)
        ...
    except Exception as e:
        logging.warning(...)

`outcomes i` scripts what the `i`-th invocation of `api.ticks` for this
day would return.  The source invokes the call exactly once (invocation 0),
never calls any login routine here, and swallows a failure after logging,
so the attempt records one call, zero re-logins, and the first outcome's
ticks (or `none` on failure). -/
def attempt_tick_fetch (outcomes : Nat → Except Unit (List TickRow)) : DayAttempt :=
  { calls := 1
    relogins := 0
    result := match outcomes 0 with
              | Except.ok t => some t
              | Except.error _ => none }

/-- What the download loop did: every `(contract code, day)` it attempted,
in order, and the per-day tick frames it accumulated in `all_ticks_df`. -/
structure RunResult where
  attempts : List (String × Nat)
  collected : List (List TickRow)
deriving DecidableEq

/-- The inclusive day walk `while current_date <= end_date_loop`. -/
def dayList (a b : Nat) : List Nat := List.range' a (b + 1 - a)

/-- The inner loop of `fetch_continuous_data` over the days of one
segment: each day is attempted via `attempt_tick_fetch`; on success with a
nonempty tick set (`if ticks.ts:`) the day's frame is accumulated; on
failure or an empty tick set the loop simply moves to the next day. -/
def runSegmentDays (script : String → Nat → Nat → Except Unit (List TickRow))
    (code : String) : List Nat → RunResult
  | [] => { attempts := [], collected := [] }
  | d :: ds =>
    let a := attempt_tick_fetch (script code d)
    let rest := runSegmentDays script code ds
    { attempts := (code, d) :: rest.attempts
      collected :=
        match a.result with
        | some ticks => if ticks.isEmpty then rest.collected else ticks :: rest.collected
        | none => rest.collected }

/-- The outer loop of `fetch_continuous_data` over the query plan's
segments, in plan order. -/
def runPlan (script : String → Nat → Nat → Except Unit (List TickRow)) :
    List QuerySegment → RunResult
  | [] => { attempts := [], collected := [] }
  | seg :: rest =>
    let r1 := runSegmentDays script seg.code (dayList seg.range_start seg.range_end)
    let r2 := runPlan script rest
    { attempts := r1.attempts ++ r2.attempts, collected := r1.collected ++ r2.collected }

/-- Shallow embedding of `TXFDownloader.fetch_continuous_data`: build the
query plan (`none` on `NoApplicableContract`, attempting no fetch), run
the download loop over it, then concatenate the accumulated frames and
resample them into bars. -/
def fetch_continuous_data (script : String → Nat → Nat → Except Unit (List TickRow))
    (contracts : List Contract) (s e : Nat) : Option (RunResult × Option (List KBarRow)) :=
  match buildQueryPlan contracts s e with
  | none => none
  | some plan =>
    let r := runPlan script plan
    some (r, resample_ticks_to_1min_kbars r.collected.flatten)

/-- Total volume over a bar list. -/
def sumBarVol : List KBarRow → Nat
  | [] => 0
  | b :: bs => b.Volume + sumBarVol bs

/-- A scripted remote call that succeeds on every invocation with one tick. -/
def okScript : String → Nat → Nat → Except Unit (List TickRow) :=
  fun _ _ _ => Except.ok [{ ts := 0, close := 100, volume := 1 }]

/-- A scripted remote call that fails (every invocation) on day 5 and
succeeds on every other day. -/
def failDay5Script : String → Nat → Nat → Except Unit (List TickRow) :=
  fun _ d _ => if d == 5 then Except.error () else Except.ok [{ ts := 0, close := 100, volume := 1 }]

/-- A per-day invocation script that fails on the first invocation and
succeeds on every later one — the spec's "fails once then succeeds"
remote call. -/
def failThenOk : Nat → Except Unit (List TickRow) :=
  fun i => if i == 0 then Except.error () else Except.ok [{ ts := 0, close := 100, volume := 1 }]

/-- C1 counterexample: for the single regular contract with delivery day
10 and the request `[10, 11]` (sorted, non-overlapping, start ≤ end),
planning succeeds with the single segment `[10, 10]`, yet day 11 of the
requested range is covered by no segment — the union of the segment
ranges is strictly smaller than `[start, end]`, contradicting the claim
as stated. -/
theorem plan_union_counterexample :
    buildQueryPlan [{ code := "TXF202401", delivery_date := 10 }] 10 11 =
      some [{ code := "TXF202401", range_start := 10, range_end := 10 }] ∧
    (10 : Nat) ≤ 11 ∧ (11 : Nat) ≤ 11 ∧
    coversDay [{ code := "TXF202401", range_start := 10, range_end := 10 }] 11 = false := by
  decide

/-- C2 counterexample: one planned segment over days 4–6 with a remote
call that fails on day 5.  The day-5 attempt fails, yet day 6 is still
attempted — the loop does not halt at the failing day (and no checkpoint
exists anywhere in the source to be left in place). -/
theorem loop_no_halt_counterexample :
    (attempt_tick_fetch (failDay5Script "TXFE4" 5)).result = none ∧
    (runPlan failDay5Script [{ code := "TXFE4", range_start := 4, range_end := 6 }]).attempts =
      [("TXFE4", 4), ("TXFE4", 5), ("TXFE4", 6)] ∧
    ("TXFE4", 6) ∈ (runPlan failDay5Script
      [{ code := "TXFE4", range_start := 4, range_end := 6 }]).attempts := by
  decide

/-- C3 counterexample: against a remote call scripted to fail on its
first invocation and succeed on its second, the source's per-day fetch
makes exactly one call, performs no re-login, and ends with no result —
not the claimed two calls, one re-login and the second call's result. -/
theorem no_retry_counterexample :
    (attempt_tick_fetch failThenOk).calls = 1 ∧
    (attempt_tick_fetch failThenOk).relogins = 0 ∧
    (attempt_tick_fetch failThenOk).result = none ∧
    ¬((attempt_tick_fetch failThenOk).calls = 2 ∧
      (attempt_tick_fetch failThenOk).relogins = 1 ∧
      (attempt_tick_fetch failThenOk).result =
        some [{ ts := 0, close := 100, volume := 1 }]) := by
  decide

/-- C4 counterexample: requested range `[10, 20]`, one regular contract
with delivery day 30, checkpoint date D = 12 with 10 < 12 < 20.  The
planning phase produces the segment `[10, 20]` and the run's first
attempted day is 10, the originally requested start — not 12:
`fetch_continuous_data` takes no checkpoint and cannot begin at D. -/
theorem no_resume_counterexample :
    buildQueryPlan [{ code := "TXFZ9", delivery_date := 30 }] 10 20 =
      some [{ code := "TXFZ9", range_start := 10, range_end := 20 }] ∧
    (runPlan okScript [{ code := "TXFZ9", range_start := 10, range_end := 20 }]).attempts.head? =
      some ("TXFZ9", 10) ∧
    (10 : Nat) < 12 ∧ (12 : Nat) < 20 ∧ (10 : Nat) ≠ 12 := by
  decide

/-- C8 counterexample: one regular contract with delivery day 5 and the
request start = 2, end = 1.  The regular subset is nonempty and contains
a contract with delivery on or after the start, so neither failure
condition of the claim holds, yet planning proceeds and produces zero
segments — refuting "in all other cases planning produces at least one
segment". -/
theorem plan_empty_counterexample :
    ([{ code := "TXF202401", delivery_date := 5 }].filter isRegular ≠ []) ∧
    (([{ code := "TXF202401", delivery_date := 5 }].filter isRegular).any
      (fun c => decide (2 ≤ c.delivery_date)) = true) ∧
    buildQueryPlan [{ code := "TXF202401", delivery_date := 5 }] 2 1 = some [] := by
  decide

/-- C9 counterexample: a one-row tick frame (no `price_for_ohlc` column,
`ts` a plain column).  After the call the frame differs from the input:
the source has set `ts` as the index and added the `price_for_ohlc`
column, so the input collection is not left unchanged. -/
theorem resample_mutates_counterexample :
    (resample_df oneRowDF).fst ≠ oneRowDF := by
  decide

/-- Helper: the attempts of one segment's day loop are exactly its days in
order, whatever the scripted outcomes are. -/
theorem runSegmentDays_attempts (script : String → Nat → Nat → Except Unit (List TickRow))
    (code : String) : ∀ days : List Nat,
    (runSegmentDays script code days).attempts = days.map (fun d => (code, d)) := by
  intro days
  induction days with
  | nil => rfl
  | cons d ds ih => simp [runSegmentDays, ih]

/-- C2 (amended): whenever the tick fetch for some day fails, the loop of
`fetch_continuous_data` logs and continues with the next day rather than
halting: for every scripted pattern of failures the loop attempts exactly
the days of every planned segment, in order (and the source maintains no
checkpoint at all). -/
theorem loop_attempts_every_planned_day
    (script : String → Nat → Nat → Except Unit (List TickRow)) :
    ∀ plan : List QuerySegment,
    (runPlan script plan).attempts =
      plan.flatMap (fun seg =>
        (dayList seg.range_start seg.range_end).map (fun d => (seg.code, d))) := by
  intro plan
  induction plan with
  | nil => rfl
  | cons seg rest ih => simp [runPlan, ih, runSegmentDays_attempts]

/-- C3 (amended): the source's per-day fetch invokes the remote call
exactly once and never invokes any re-login; a successful first invocation
yields its ticks and a failed first invocation yields no result (the day
is skipped) — there is no retry of any kind. -/
theorem fetch_single_call_no_relogin (outcomes : Nat → Except Unit (List TickRow)) :
    (attempt_tick_fetch outcomes).calls = 1 ∧
    (attempt_tick_fetch outcomes).relogins = 0 ∧
    (∀ t, outcomes 0 = Except.ok t → (attempt_tick_fetch outcomes).result = some t) ∧
    (∀ err, outcomes 0 = Except.error err → (attempt_tick_fetch outcomes).result = none) := by
  refine ⟨rfl, rfl, ?_, ?_⟩ <;> intro x hx <;> simp [attempt_tick_fetch, hx]

/-- Witness for C3 (amended) at a concrete always-succeeding script. -/
theorem fetch_single_call_no_relogin_witness :
    (attempt_tick_fetch (okScript "TXFA4" 3)).calls = 1 ∧
    (attempt_tick_fetch (okScript "TXFA4" 3)).relogins = 0 ∧
    (attempt_tick_fetch (okScript "TXFA4" 3)).result =
      some [{ ts := 0, close := 100, volume := 1 }] :=
  ⟨(fetch_single_call_no_relogin (okScript "TXFA4" 3)).1,
   (fetch_single_call_no_relogin (okScript "TXFA4" 3)).2.1,
   (fetch_single_call_no_relogin (okScript "TXFA4" 3)).2.2.1 _ rfl⟩

/-- C9 (amended): the value `resample_ticks_to_1min_kbars` returns is a
pure function of the input frame's rows — equal inputs give equal outputs
— but the call does not leave a non-empty input frame unchanged: it sets
the `ts` column as the index and adds a `price_for_ohlc` column in place
(an empty frame is returned before any mutation). -/
theorem resample_pure_value_but_mutates (df : TicksDF) :
    (resample_df df).snd = resample_ticks_to_1min_kbars (rowsOf df) ∧
    (∀ df2 : TicksDF, rowsOf df = rowsOf df2 →
      (resample_df df).snd = (resample_df df2).snd) ∧
    (df.ts.isEmpty = true → (resample_df df).fst = df) ∧
    (df.ts.isEmpty = false → (resample_df df).fst =
      { df with useTsIndex := true, price_for_ohlc := some df.close }) := by
  have hval : ∀ d : TicksDF, (resample_df d).snd = resample_ticks_to_1min_kbars (rowsOf d) := by
    intro d
    by_cases h : d.ts.isEmpty
    · have hrows : rowsOf d = [] := by
        have : d.ts = [] := List.isEmpty_iff.mp h
        simp [rowsOf, this]
      simp [resample_df, h, hrows, resample_ticks_to_1min_kbars, sortTicks]
    · simp [resample_df, h]
  refine ⟨hval df, ?_, ?_, ?_⟩
  · intro df2 hr
    rw [hval df, hval df2, hr]
  · intro h; simp [resample_df, h]
  · intro h; simp [resample_df, h]

/-- Witness for C9 (amended) at a concrete one-row frame. -/
theorem resample_pure_value_but_mutates_witness :
    (resample_df oneRowDF).snd = resample_ticks_to_1min_kbars (rowsOf oneRowDF) ∧
    (resample_df oneRowDF).fst =
      { useTsIndex := true, ts := [0], close := [100], volume := [1],
        price_for_ohlc := some [100] } :=
  ⟨(resample_pure_value_but_mutates oneRowDF).1,
   (resample_pure_value_but_mutates oneRowDF).2.2.2 rfl⟩

/-- Membership is preserved by `insertTick`. -/
theorem mem_insertTick {u t : TickRow} : ∀ {l : List TickRow},
    u ∈ insertTick t l ↔ u = t ∨ u ∈ l := by
  intro l
  induction l with
  | nil => simp [insertTick]
  | cons v vs ih =>
    by_cases h : v.ts < t.ts
    · simp only [insertTick, if_pos h, List.mem_cons, ih]
      tauto
    · simp only [insertTick, if_neg h, List.mem_cons]

/-- Membership is preserved by `sortTicks`. -/
theorem mem_sortTicks {u : TickRow} : ∀ {l : List TickRow}, u ∈ sortTicks l ↔ u ∈ l := by
  intro l
  induction l with
  | nil => simp [sortTicks]
  | cons v vs ih => simp only [sortTicks, mem_insertTick, List.mem_cons, ih]

/-- `insertTick` preserves sortedness by timestamp. -/
theorem sorted_insertTick {t : TickRow} : ∀ {l : List TickRow},
    l.Pairwise (fun a b => a.ts ≤ b.ts) →
    (insertTick t l).Pairwise (fun a b => a.ts ≤ b.ts) := by
  intro l
  induction l with
  | nil => intro _; simp [insertTick]
  | cons v vs ih =>
    intro h
    rcases List.pairwise_cons.mp h with ⟨hv, hvs⟩
    by_cases hlt : v.ts < t.ts
    · simp only [insertTick, if_pos hlt]
      refine List.pairwise_cons.mpr ⟨?_, ih hvs⟩
      intro u hu
      rcases mem_insertTick.mp hu with rfl | hu2
      · exact Nat.le_of_lt hlt
      · exact hv u hu2
    · simp only [insertTick, if_neg hlt]
      refine List.pairwise_cons.mpr ⟨?_, h⟩
      intro u hu
      rcases List.mem_cons.mp hu with rfl | hu2
      · exact Nat.le_of_not_lt hlt
      · exact Nat.le_trans (Nat.le_of_not_lt hlt) (hv u hu2)

/-- The output of `sortTicks` is sorted by timestamp. -/
theorem sorted_sortTicks : ∀ l : List TickRow,
    (sortTicks l).Pairwise (fun a b => a.ts ≤ b.ts) := by
  intro l
  induction l with
  | nil => simp [sortTicks]
  | cons v vs ih => exact sorted_insertTick ih

/-- `sortTicks` returns the empty list only on the empty list. -/
theorem sortTicks_eq_nil : ∀ {l : List TickRow}, sortTicks l = [] ↔ l = [] := by
  intro l
  induction l with
  | nil => simp [sortTicks]
  | cons v vs _ =>
    simp only [sortTicks]
    constructor
    · intro h
      cases hvs : sortTicks vs with
      | nil => rw [hvs] at h; exact absurd h (by simp [insertTick])
      | cons w ws =>
        rw [hvs] at h
        by_cases hlt : w.ts < v.ts <;> simp [insertTick, hlt] at h
    · intro h; exact absurd h (by simp)

/-- How `insertTick` interacts with filtering on one exact timestamp:
the inserted tick lands in front of the retained ticks of its own
timestamp (every tick it is inserted behind has a strictly smaller
timestamp), so filtering commutes up to prepending the new tick. -/
theorem filter_ts_insertTick (t : TickRow) (c : Nat) : ∀ m : List TickRow,
    (insertTick t m).filter (fun u => u.ts == c) =
      (if t.ts == c then [t] else []) ++ m.filter (fun u => u.ts == c) := by
  intro m
  induction m with
  | nil =>
    by_cases h : t.ts = c
    · simp [insertTick, List.filter_cons, h]
    · have h2 : (t.ts == c) = false := by simpa using h
      simp [insertTick, List.filter_cons, h2]
  | cons u us ih =>
    by_cases hlt : u.ts < t.ts
    · by_cases hc : u.ts = c
      · have htc : (t.ts == c) = false := by
          have : t.ts ≠ c := by omega
          simpa using this
        rw [htc] at ih
        simp only [insertTick, if_pos hlt, List.filter_cons, ih, htc]
        simp [hc]
      · have huc : (u.ts == c) = false := by simpa using hc
        simp [insertTick, if_pos hlt, List.filter_cons, ih, huc]
    · simp only [insertTick, if_neg hlt, List.filter_cons]
      by_cases htc : t.ts = c
      · simp [htc]
      · have htc2 : (t.ts == c) = false := by simpa using htc
        simp [htc2]

/-- Stability of `sortTicks`: the ticks carrying any one exact timestamp
appear in the sorted output in exactly their arrival order. -/
theorem sortTicks_stable (c : Nat) : ∀ l : List TickRow,
    (sortTicks l).filter (fun u => u.ts == c) = l.filter (fun u => u.ts == c) := by
  intro l
  induction l with
  | nil => rfl
  | cons t ts ih =>
    simp only [sortTicks, filter_ts_insertTick, ih, List.filter_cons]
    by_cases h : t.ts = c
    · simp [h]
    · have h2 : (t.ts == c) = false := by simpa using h
      simp [h2]

/-- The seed never exceeds the running maximum. -/
theorem le_highClose : ∀ (l : List TickRow) (c : Int), c ≤ highClose c l := by
  intro l
  induction l with
  | nil => intro c; exact le_refl c
  | cons t ts ih =>
    intro c
    exact le_trans (le_max_left c t.close) (ih (max c t.close))

/-- The running minimum never exceeds the seed. -/
theorem lowClose_le : ∀ (l : List TickRow) (c : Int), lowClose c l ≤ c := by
  intro l
  induction l with
  | nil => intro c; exact le_refl c
  | cons t ts ih =>
    intro c
    exact le_trans (ih (min c t.close)) (min_le_left c t.close)

/-- `highClose` is monotone in its seed. -/
theorem highClose_mono : ∀ (l : List TickRow) {c d : Int}, c ≤ d →
    highClose c l ≤ highClose d l := by
  intro l
  induction l with
  | nil => intro c d h; exact h
  | cons t ts ih =>
    intro c d h
    exact ih (max_le_max h (le_refl t.close))

/-- `lowClose` is monotone in its seed. -/
theorem lowClose_mono : ∀ (l : List TickRow) {c d : Int}, c ≤ d →
    lowClose c l ≤ lowClose d l := by
  intro l
  induction l with
  | nil => intro c d h; exact h
  | cons t ts ih =>
    intro c d h
    exact ih (min_le_min h (le_refl t.close))

/-- The bucket minimum never exceeds the bucket's last price. -/
theorem lowClose_le_lastClose : ∀ (l : List TickRow) (c : Int),
    lowClose c l ≤ lastClose c l := by
  intro l
  induction l with
  | nil => intro c; exact le_refl c
  | cons t ts ih =>
    intro c
    exact le_trans (lowClose_mono ts (min_le_right c t.close)) (ih t.close)

/-- The bucket's last price never exceeds the bucket maximum. -/
theorem lastClose_le_highClose : ∀ (l : List TickRow) (c : Int),
    lastClose c l ≤ highClose c l := by
  intro l
  induction l with
  | nil => intro c; exact le_refl c
  | cons t ts ih =>
    intro c
    exact le_trans (ih t.close) (highClose_mono ts (le_max_right c t.close))

/-- `insertTick` adds exactly the inserted tick's volume. -/
theorem sumVolume_insertTick (t : TickRow) : ∀ l : List TickRow,
    sumVolume (insertTick t l) = t.volume + sumVolume l := by
  intro l
  induction l with
  | nil => rfl
  | cons u us ih =>
    by_cases h : u.ts < t.ts
    · simp only [insertTick, if_pos h, sumVolume, ih]
      omega
    · simp [insertTick, if_neg h, sumVolume]

/-- Sorting preserves the total volume. -/
theorem sumVolume_sortTicks : ∀ l : List TickRow, sumVolume (sortTicks l) = sumVolume l := by
  intro l
  induction l with
  | nil => rfl
  | cons t ts ih => simp only [sortTicks, sumVolume, sumVolume_insertTick, ih]

/-- In a sorted tick list, every element's timestamp is bounded by the
last element's. -/
theorem ts_le_lastTick : ∀ (rest : List TickRow) (t : TickRow),
    (t :: rest).Pairwise (fun a b => a.ts ≤ b.ts) →
    ∀ u ∈ t :: rest, u.ts ≤ (lastTick t rest).ts := by
  intro rest
  induction rest with
  | nil =>
    intro t _ u hu
    rcases List.mem_cons.mp hu with rfl | hu2
    · exact le_refl _
    · cases hu2
  | cons v vs ih =>
    intro t h u hu
    rcases List.pairwise_cons.mp h with ⟨ht, h2⟩
    have hlast : lastTick t (v :: vs) = lastTick v vs := rfl
    rw [hlast]
    rcases List.mem_cons.mp hu with rfl | hu2
    · exact le_trans (ht v (List.mem_cons_self v vs))
        (ih v h2 v (List.mem_cons_self v vs))
    · exact ih v h2 u hu2

/-- Inclusive-bounds membership for `List.range'` with unit step. -/
theorem mem_range1 {a n m : Nat} : m ∈ List.range' a n ↔ a ≤ m ∧ m < a + n := by
  rw [List.mem_range']
  constructor
  · rintro ⟨i, hi, rfl⟩; omega
  · intro h
    exact ⟨m - a, by omega, by omega⟩

/-- `List.range'` with unit step is strictly increasing. -/
theorem pairwise_lt_range1 : ∀ (n a : Nat), (List.range' a n).Pairwise (fun x y => x < y) := by
  intro n
  induction n with
  | zero => intro a; simp
  | succ k ih =>
    intro a
    rw [List.range'_succ]
    refine List.pairwise_cons.mpr ⟨?_, ih (a + 1)⟩
    intro m hm
    have := mem_range1.mp hm
    omega

/-- In a sorted nonempty tick list, every tick's minute bucket lies in the
generated bin range. -/
theorem bucket_mem_bucketRange (t : TickRow) (rest : List TickRow)
    (h : (t :: rest).Pairwise (fun a b => a.ts ≤ b.ts)) :
    ∀ u ∈ t :: rest, minuteBucket u.ts ∈ bucketRange t rest := by
  intro u hu
  have h1 : t.ts ≤ u.ts := by
    rcases List.mem_cons.mp hu with rfl | hu2
    · exact le_refl _
    · exact (List.pairwise_cons.mp h).1 u hu2
  have h2 : u.ts ≤ (lastTick t rest).ts := ts_le_lastTick rest t h u hu
  have hb1 : minuteBucket t.ts ≤ minuteBucket u.ts := Nat.div_le_div_right h1
  have hb2 : minuteBucket u.ts ≤ minuteBucket (lastTick t rest).ts := Nat.div_le_div_right h2
  rw [bucketRange, mem_range1]
  omega

/-- A bin bar carries its bin's minute-aligned timestamp. -/
theorem binBar_ts {b : Nat} {ticks : List TickRow} {bar : KBarRow}
    (h : binBar b ticks = some bar) : bar.ts = b * nsPerMin := by
  cases ticks with
  | nil => cases h
  | cons t rest =>
    simp only [binBar, Option.some.injEq] at h
    rw [← h]

/-- C7: every bar emitted by `resample_ticks_to_1min_kbars` satisfies
`Low ≤ Open ≤ High`, `Low ≤ Close ≤ High` and `Low ≤ High`; every emitted
bar corresponds to a minute bucket containing at least one input tick (an
empty bucket produces no bar); and the bars are emitted in strictly
ascending bucket-time order. -/
theorem bars_wellformed (l : List TickRow) (bars : List KBarRow)
    (h : resample_ticks_to_1min_kbars l = some bars) :
    (∀ bar ∈ bars,
      bar.Low ≤ bar.Open ∧ bar.Open ≤ bar.High ∧ bar.Low ≤ bar.Close ∧
      bar.Close ≤ bar.High ∧ bar.Low ≤ bar.High ∧
      ∃ t ∈ l, minuteBucket t.ts = minuteBucket bar.ts) ∧
    bars.Pairwise (fun a b => a.ts < b.ts) := by
  unfold resample_ticks_to_1min_kbars at h
  cases hs : sortTicks l with
  | nil => rw [hs] at h; cases h
  | cons t rest =>
    rw [hs] at h
    have hbars : bars = (bucketRange t rest).filterMap
        (fun b => binBar b ((t :: rest).filter (fun u => minuteBucket u.ts == b))) :=
      (Option.some.injEq _ _ ▸ h).symm
    constructor
    · intro bar hbar
      rw [hbars] at hbar
      rcases List.mem_filterMap.mp hbar with ⟨b, _, hfb⟩
      cases hf : (t :: rest).filter (fun u => minuteBucket u.ts == b) with
      | nil => rw [hf] at hfb; cases hfb
      | cons v vs =>
        rw [hf] at hfb
        simp only [binBar, Option.some.injEq] at hfb
        have hv : v ∈ (t :: rest).filter (fun u => minuteBucket u.ts == b) := by
          rw [hf]; exact List.mem_cons_self v vs
        rcases List.mem_filter.mp hv with ⟨hvmem, hvb⟩
        have hvl : v ∈ l := mem_sortTicks.mp (hs ▸ hvmem)
        have hvb2 : minuteBucket v.ts = b := by simpa using hvb
        refine ⟨?_, ?_, ?_, ?_, ?_, v, hvl, ?_⟩
        · rw [← hfb]; exact lowClose_le vs v.close
        · rw [← hfb]; exact le_highClose vs v.close
        · rw [← hfb]; exact lowClose_le_lastClose vs v.close
        · rw [← hfb]; exact lastClose_le_highClose vs v.close
        · rw [← hfb]
          exact le_trans (lowClose_le vs v.close) (le_highClose vs v.close)
        · rw [← hfb]
          simp only [minuteBucket]
          rw [Nat.mul_div_cancel _ (by decide : 0 < nsPerMin)]
          exact hvb2
    · rw [hbars]
      refine List.Pairwise.filterMap _ ?_ (pairwise_lt_range1 _ _)
      intro a b hab x hx y hy
      have hxa : x.ts = a * nsPerMin := binBar_ts hx
      have hyb : y.ts = b * nsPerMin := binBar_ts hy
      rw [hxa, hyb]
      simp only [nsPerMin]
      omega

/-- Witness for C7 at the worked example: the first emitted bar's
inequalities and the ascending order of the two bars. -/
theorem bars_wellformed_witness :
    ([ { ts := clockNs 9 1 0, Close := 110, Volume := 23, Open := 100, High := 120, Low := 100 }
     , { ts := clockNs 9 2 0, Close := 115, Volume := 20, Open := 115, High := 115, Low := 115 } ]
      : List KBarRow).Pairwise (fun a b => a.ts < b.ts) :=
  (bars_wellformed c5Ticks _ (by decide)).2

/-- C6: for every input tick sequence, sorted or not,
`resample_ticks_to_1min_kbars` works on a timestamp-sorted copy of the
rows produced by a stable sort — ticks sharing an identical timestamp
keep their arrival order — and each emitted bar's `Open` is the price of
the chronologically first tick of its minute while `Close` is the price
of the chronologically last. -/
theorem resample_sorts_stably (l : List TickRow) (bars : List KBarRow)
    (h : resample_ticks_to_1min_kbars l = some bars) :
    (sortTicks l).Pairwise (fun a b => a.ts ≤ b.ts) ∧
    (∀ c : Nat, (sortTicks l).filter (fun u => u.ts == c) = l.filter (fun u => u.ts == c)) ∧
    (∀ bar ∈ bars, ∃ t rest,
      (sortTicks l).filter (fun u => minuteBucket u.ts == minuteBucket bar.ts) = t :: rest ∧
      bar.Open = t.close ∧ bar.Close = lastClose t.close rest) := by
  refine ⟨sorted_sortTicks l, fun c => sortTicks_stable c l, ?_⟩
  intro bar hbar
  unfold resample_ticks_to_1min_kbars at h
  cases hs : sortTicks l with
  | nil => rw [hs] at h; cases h
  | cons t rest =>
    rw [hs] at h
    have hbars : bars = (bucketRange t rest).filterMap
        (fun b => binBar b ((t :: rest).filter (fun u => minuteBucket u.ts == b))) :=
      (Option.some.injEq _ _ ▸ h).symm
    rw [hbars] at hbar
    rcases List.mem_filterMap.mp hbar with ⟨b, _, hfb⟩
    cases hf : (t :: rest).filter (fun u => minuteBucket u.ts == b) with
    | nil => rw [hf] at hfb; cases hfb
    | cons v vs =>
      rw [hf] at hfb
      simp only [binBar, Option.some.injEq] at hfb
      have hbts : minuteBucket bar.ts = b := by
        rw [← hfb]
        simp only [minuteBucket]
        exact Nat.mul_div_cancel _ (by decide : 0 < nsPerMin)
      refine ⟨v, vs, ?_, ?_, ?_⟩
      · rw [hbts]; exact hf
      · rw [← hfb]
      · rw [← hfb]

/-- Witness for C6 at a concrete out-of-order input with an
equal-timestamp pair: the sorted copy is sorted, and the two 09:01:25
ticks keep their arrival order under filtering. -/
theorem resample_sorts_stably_witness :
    (sortTicks unsortedTicks).Pairwise (fun a b => a.ts ≤ b.ts) ∧
    (sortTicks unsortedTicks).filter (fun u => u.ts == clockNs 9 1 25) =
      unsortedTicks.filter (fun u => u.ts == clockNs 9 1 25) :=
  ⟨(resample_sorts_stably unsortedTicks
      [ { ts := clockNs 9 1 0, Close := 121, Volume := 17, Open := 100, High := 121, Low := 100 }
      , { ts := clockNs 9 2 0, Close := 115, Volume := 20, Open := 115, High := 115, Low := 115 } ]
      (by decide)).1,
   (resample_sorts_stably unsortedTicks
      [ { ts := clockNs 9 1 0, Close := 121, Volume := 17, Open := 100, High := 121, Low := 100 }
      , { ts := clockNs 9 2 0, Close := 115, Volume := 20, Open := 115, High := 115, Low := 115 } ]
      (by decide)).2.1 (clockNs 9 1 25)⟩

/-- Summing the zero function over a bin list. -/
theorem sum_map_zero : ∀ bs : List Nat, (bs.map (fun _ => (0 : Nat))).sum = 0 := by
  intro bs
  induction bs with
  | nil => rfl
  | cons b bs2 ih => simp [ih]

/-- Splitting a pointwise sum of two bin functions. -/
theorem sum_map_add (f g : Nat → Nat) : ∀ bs : List Nat,
    (bs.map (fun b => f b + g b)).sum = (bs.map f).sum + (bs.map g).sum := by
  intro bs
  induction bs with
  | nil => rfl
  | cons b bs2 ih =>
    simp only [List.map_cons, List.sum_cons, ih]
    omega

/-- An indicator sums to zero over bins that never match. -/
theorem sum_map_indicator_notmem (x v : Nat) : ∀ bs : List Nat, x ∉ bs →
    (bs.map (fun b => if x = b then v else 0)).sum = 0 := by
  intro bs
  induction bs with
  | nil => intro _; rfl
  | cons b bs2 ih =>
    intro hx
    have hxb : x ≠ b := fun heq => hx (heq ▸ List.mem_cons_self b bs2)
    have hx2 : x ∉ bs2 := fun h2 => hx (List.mem_cons_of_mem b h2)
    simp [hxb, ih hx2]

/-- Over pairwise-distinct bins containing the bin `x`, the indicator
collects its value exactly once. -/
theorem sum_map_indicator (x v : Nat) : ∀ bs : List Nat,
    bs.Pairwise (fun a b => a ≠ b) → x ∈ bs →
    (bs.map (fun b => if x = b then v else 0)).sum = v := by
  intro bs
  induction bs with
  | nil => intro _ hx; cases hx
  | cons b bs2 ih =>
    intro hnd hx
    rcases List.pairwise_cons.mp hnd with ⟨hb, hnd2⟩
    by_cases hxb : x = b
    · subst hxb
      have hx2 : x ∉ bs2 := fun h2 => hb x h2 rfl
      simp [sum_map_indicator_notmem x v bs2 hx2]
    · have hx2 : x ∈ bs2 := by
        rcases List.mem_cons.mp hx with h2 | h2
        · exact absurd h2 hxb
        · exact h2
      simp [hxb, ih hnd2 hx2]

/-- Pairwise-distinct bins covering every row's bucket partition the
total volume. -/
theorem sum_filter_volume : ∀ (s : List TickRow) (bs : List Nat),
    bs.Pairwise (fun a b => a ≠ b) →
    (∀ u ∈ s, minuteBucket u.ts ∈ bs) →
    (bs.map (fun b => sumVolume (s.filter (fun u => minuteBucket u.ts == b)))).sum =
      sumVolume s := by
  intro s
  induction s with
  | nil =>
    intro bs _ _
    have : ∀ b : Nat, sumVolume (List.filter (fun u => minuteBucket u.ts == b) []) = 0 :=
      fun _ => rfl
    simp only [this]
    exact sum_map_zero bs
  | cons u s2 ih =>
    intro bs hnd hcov
    have hcov2 : ∀ w ∈ s2, minuteBucket w.ts ∈ bs :=
      fun w hw => hcov w (List.mem_cons_of_mem u hw)
    have hterm : ∀ b : Nat,
        sumVolume (List.filter (fun w => minuteBucket w.ts == b) (u :: s2)) =
          (if minuteBucket u.ts = b then u.volume else 0) +
            sumVolume (List.filter (fun w => minuteBucket w.ts == b) s2) := by
      intro b
      by_cases hb : minuteBucket u.ts = b
      · simp [List.filter_cons, hb, sumVolume]
      · have hb2 : (minuteBucket u.ts == b) = false := by simpa using hb
        simp [List.filter_cons, hb2, hb]
    simp only [hterm]
    rw [sum_map_add (fun b => if minuteBucket u.ts = b then u.volume else 0)
      (fun b => sumVolume (List.filter (fun w => minuteBucket w.ts == b) s2)) bs]
    rw [sum_map_indicator (minuteBucket u.ts) u.volume bs hnd
      (hcov u (List.mem_cons_self u s2))]
    rw [ih bs hnd hcov2]
    rfl

/-- The emitted bars' volumes sum to the per-bin filtered volumes: an
empty bin is dropped but contributes zero anyway. -/
theorem sumBarVol_filterMap (s : List TickRow) : ∀ bs : List Nat,
    sumBarVol (bs.filterMap (fun b => binBar b (s.filter (fun u => minuteBucket u.ts == b)))) =
      (bs.map (fun b => sumVolume (s.filter (fun u => minuteBucket u.ts == b)))).sum := by
  intro bs
  induction bs with
  | nil => rfl
  | cons b bs2 ih =>
    cases hf : s.filter (fun u => minuteBucket u.ts == b) with
    | nil =>
      have hnone : (fun b => binBar b (s.filter (fun u => minuteBucket u.ts == b))) b = none := by
        simp only
        rw [hf]
        rfl
      rw [List.filterMap_cons_none
        (f := fun b => binBar b (s.filter (fun u => minuteBucket u.ts == b))) hnone,
        List.map_cons, List.sum_cons, ih, hf]
      simp [sumVolume]
    | cons v vs =>
      have hsome : (fun b => binBar b (s.filter (fun u => minuteBucket u.ts == b))) b = some
          { ts := b * nsPerMin, Close := lastClose v.close vs,
            Volume := v.volume + sumVolume vs, Open := v.close,
            High := highClose v.close vs, Low := lowClose v.close vs } := by
        simp only
        rw [hf]
        rfl
      rw [List.filterMap_cons_some
        (f := fun b => binBar b (s.filter (fun u => minuteBucket u.ts == b))) hsome,
        List.map_cons, List.sum_cons, hf]
      simp only [sumBarVol, ih, sumVolume]

/-- C10: for every non-empty input tick sequence, the sum of the emitted
bars' volumes equals the sum of the input ticks' volumes — aggregation
conserves total traded volume. -/
theorem volume_conserved (l : List TickRow) (bars : List KBarRow)
    (_hne : l ≠ []) (h : resample_ticks_to_1min_kbars l = some bars) :
    sumBarVol bars = sumVolume l := by
  unfold resample_ticks_to_1min_kbars at h
  cases hs : sortTicks l with
  | nil => rw [hs] at h; cases h
  | cons t rest =>
    rw [hs] at h
    have hbars : bars = (bucketRange t rest).filterMap
        (fun b => binBar b ((t :: rest).filter (fun u => minuteBucket u.ts == b))) :=
      (Option.some.injEq _ _ ▸ h).symm
    have hsorted : (t :: rest).Pairwise (fun a b => a.ts ≤ b.ts) := by
      rw [← hs]; exact sorted_sortTicks l
    have hnd : (bucketRange t rest).Pairwise (fun a b => a ≠ b) := by
      have := pairwise_lt_range1
        (minuteBucket (lastTick t rest).ts + 1 - minuteBucket t.ts) (minuteBucket t.ts)
      exact this.imp (fun hlt => Nat.ne_of_lt hlt)
    have hcov : ∀ u ∈ t :: rest, minuteBucket u.ts ∈ bucketRange t rest :=
      bucket_mem_bucketRange t rest hsorted
    rw [hbars, sumBarVol_filterMap, sum_filter_volume _ _ hnd hcov]
    rw [← hs]
    exact sumVolume_sortTicks l

/-- Witness for C10 at the worked example: both sides evaluate to 43. -/
theorem volume_conserved_witness :
    sumBarVol
      [ { ts := clockNs 9 1 0, Close := 110, Volume := 23, Open := 100, High := 120, Low := 100 }
      , { ts := clockNs 9 2 0, Close := 115, Volume := 20, Open := 115, High := 115, Low := 115 } ] =
      sumVolume c5Ticks :=
  volume_conserved c5Ticks _ (by decide) (by decide)

/-- Membership is preserved by `insertByDelivery`. -/
theorem mem_insertByDelivery {x c : Contract} : ∀ {l : List Contract},
    x ∈ insertByDelivery c l ↔ x = c ∨ x ∈ l := by
  intro l
  induction l with
  | nil => simp [insertByDelivery]
  | cons d ds ih =>
    by_cases h : d.delivery_date < c.delivery_date
    · simp only [insertByDelivery, if_pos h, List.mem_cons, ih]
      tauto
    · simp only [insertByDelivery, if_neg h, List.mem_cons]

/-- Membership is preserved by `sortByDelivery`. -/
theorem mem_sortByDelivery {x : Contract} : ∀ {l : List Contract},
    x ∈ sortByDelivery l ↔ x ∈ l := by
  intro l
  induction l with
  | nil => simp [sortByDelivery]
  | cons c cs ih => simp only [sortByDelivery, mem_insertByDelivery, List.mem_cons, ih]

/-- `sortByDelivery` returns the empty list only on the empty list. -/
theorem sortByDelivery_eq_nil : ∀ {l : List Contract}, sortByDelivery l = [] ↔ l = [] := by
  intro l
  induction l with
  | nil => simp [sortByDelivery]
  | cons c cs _ =>
    simp only [sortByDelivery]
    constructor
    · intro h
      cases hcs : sortByDelivery cs with
      | nil => rw [hcs] at h; exact absurd h (by simp [insertByDelivery])
      | cons d ds =>
        rw [hcs] at h
        by_cases hlt : d.delivery_date < c.delivery_date <;>
          simp [insertByDelivery, hlt] at h
    · intro h; exact absurd h (by simp)

/-- Inserting below every element of a list leaves it in front. -/
theorem insertByDelivery_head_le {c : Contract} : ∀ {cs : List Contract},
    (∀ d ∈ cs, c.delivery_date ≤ d.delivery_date) → insertByDelivery c cs = c :: cs := by
  intro cs h
  cases cs with
  | nil => rfl
  | cons d ds =>
    have hnd : ¬ d.delivery_date < c.delivery_date :=
      Nat.not_lt.mpr (h d (List.mem_cons_self d ds))
    simp [insertByDelivery, hnd]

/-- Sorting an already delivery-sorted list is the identity (so the
source's `sorted` call leaves a sorted catalog unchanged). -/
theorem sortByDelivery_sorted_id : ∀ {l : List Contract},
    l.Pairwise (fun a b => a.delivery_date ≤ b.delivery_date) → sortByDelivery l = l := by
  intro l
  induction l with
  | nil => intro _; rfl
  | cons c cs ih =>
    intro h
    rcases List.pairwise_cons.mp h with ⟨hc, h2⟩
    rw [sortByDelivery, ih h2, insertByDelivery_head_le hc]

/-- An element failing the predicate survives `dropWhile`. -/
theorem mem_dropWhile_of_pred_false (p : α → Bool) : ∀ (l : List α) (x : α),
    x ∈ l → p x = false → x ∈ l.dropWhile p := by
  intro l
  induction l with
  | nil => intro x hx _; cases hx
  | cons a as ih =>
    intro x hx hpx
    by_cases hpa : p a
    · rw [List.dropWhile_cons_of_pos hpa]
      rcases List.mem_cons.mp hx with rfl | hx2
      · rw [hpa] at hpx; cases hpx
      · exact ih x hx2 hpx
    · rw [List.dropWhile_cons_of_neg hpa]
      exact hx

/-- A fresh code makes `upsertSegment` a plain append. -/
theorem upsertSegment_fresh {plan : List QuerySegment} {seg : QuerySegment}
    (h : ∀ q ∈ plan, q.code ≠ seg.code) :
    upsertSegment plan seg = plan ++ [seg] := by
  have hany : plan.any (fun q => q.code == seg.code) = false := by
    rw [List.any_eq_false]
    intro q hq
    simpa using h q hq
  simp [upsertSegment, hany]

/-- `upsertSegment` never shrinks the plan. -/
theorem length_le_upsertSegment (plan : List QuerySegment) (seg : QuerySegment) :
    plan.length ≤ (upsertSegment plan seg).length := by
  unfold upsertSegment
  by_cases h : plan.any (fun q => q.code == seg.code)
  · simp [h]
  · simp [h]

/-- Unfolding equation for `planWalk` on a cons cell. -/
theorem planWalk_cons (s e : Nat) (c : Contract) (rest : List Contract) (r : Nat)
    (plan : List QuerySegment) :
    planWalk s e (c :: rest) r plan =
      if e ≤ c.delivery_date then
        (if max s r ≤ min e c.delivery_date then
          upsertSegment plan ⟨c.code, max s r, min e c.delivery_date⟩ else plan)
      else planWalk s e rest (c.delivery_date + 1)
        (if max s r ≤ min e c.delivery_date then
          upsertSegment plan ⟨c.code, max s r, min e c.delivery_date⟩ else plan) := rfl

/-- `planWalk` never shrinks its accumulated plan. -/
theorem planWalk_length_mono (s e : Nat) : ∀ (cs : List Contract) (r : Nat)
    (plan : List QuerySegment), plan.length ≤ (planWalk s e cs r plan).length := by
  intro cs
  induction cs with
  | nil => intro r plan; exact le_refl _
  | cons c rest ih =>
    intro r plan
    rw [planWalk_cons]
    by_cases hbrk : e ≤ c.delivery_date
    · rw [if_pos hbrk]
      by_cases hemit : max s r ≤ min e c.delivery_date
      · rw [if_pos hemit]
        exact length_le_upsertSegment plan _
      · rw [if_neg hemit]
    · rw [if_neg hbrk]
      by_cases hemit : max s r ≤ min e c.delivery_date
      · rw [if_pos hemit]
        exact le_trans (length_le_upsertSegment plan _) (ih _ _)
      · rw [if_neg hemit]
        exact ih _ _

/-- With pairwise-fresh codes, walking with an accumulated plan is the
accumulated plan followed by the walk from an empty plan. -/
theorem planWalk_append (s e : Nat) : ∀ (cs : List Contract) (r : Nat)
    (plan : List QuerySegment),
    cs.Pairwise (fun a b => a.code ≠ b.code) →
    (∀ q ∈ plan, ∀ c ∈ cs, q.code ≠ c.code) →
    planWalk s e cs r plan = plan ++ planWalk s e cs r [] := by
  intro cs
  induction cs with
  | nil => intro r plan _ _; simp [planWalk]
  | cons c rest ih =>
    intro r plan hnd hfresh
    rcases List.pairwise_cons.mp hnd with ⟨hc, hnd2⟩
    have hfr : ∀ q ∈ plan, q.code ≠ c.code :=
      fun q hq => hfresh q hq c (List.mem_cons_self c rest)
    have hup : upsertSegment plan ⟨c.code, max s r, min e c.delivery_date⟩ =
        plan ++ [⟨c.code, max s r, min e c.delivery_date⟩] := upsertSegment_fresh hfr
    have hup0 : upsertSegment [] ⟨c.code, max s r, min e c.delivery_date⟩ =
        [(⟨c.code, max s r, min e c.delivery_date⟩ : QuerySegment)] := rfl
    rw [planWalk_cons, planWalk_cons]
    by_cases hbrk : e ≤ c.delivery_date
    · rw [if_pos hbrk, if_pos hbrk]
      by_cases hemit : max s r ≤ min e c.delivery_date
      · rw [if_pos hemit, if_pos hemit, hup, hup0]
      · rw [if_neg hemit, if_neg hemit, List.append_nil]
    · rw [if_neg hbrk, if_neg hbrk]
      by_cases hemit : max s r ≤ min e c.delivery_date
      · rw [if_pos hemit, if_pos hemit, hup, hup0]
        have hfresh1 : ∀ q ∈ plan ++ [(⟨c.code, max s r, min e c.delivery_date⟩ : QuerySegment)],
            ∀ d ∈ rest, q.code ≠ d.code := by
          intro q hq d hd
          rcases List.mem_append.mp hq with hq2 | hq2
          · exact hfresh q hq2 d (List.mem_cons_of_mem c hd)
          · rcases List.mem_singleton.mp hq2 with rfl
            exact hc d hd
        have hfresh2 : ∀ q ∈ [(⟨c.code, max s r, min e c.delivery_date⟩ : QuerySegment)],
            ∀ d ∈ rest, q.code ≠ d.code := by
          intro q hq d hd
          rcases List.mem_singleton.mp hq with rfl
          exact hc d hd
        rw [ih _ _ hnd2 hfresh1, ih _ _ hnd2 hfresh2, List.append_assoc]
      · rw [if_neg hemit, if_neg hemit]
        have hfresh3 : ∀ q ∈ plan, ∀ d ∈ rest, q.code ≠ d.code :=
          fun q hq d hd => hfresh q hq d (List.mem_cons_of_mem c hd)
        exact ih _ _ hnd2 hfresh3

/-- `upsertSegment` into the empty plan. -/
theorem upsertSegment_nil (seg : QuerySegment) : upsertSegment [] seg = [seg] := rfl

/-- Coverage by a singleton plan. -/
theorem coversDay_singleton_iff {q : QuerySegment} {d : Nat} :
    coversDay [q] d = true ↔ q.range_start ≤ d ∧ d ≤ q.range_end := by
  simp [coversDay]

/-- Coverage unfolding on a cons cell. -/
theorem coversDay_cons (q : QuerySegment) (qs : List QuerySegment) (d : Nat) :
    coversDay (q :: qs) d =
      ((decide (q.range_start ≤ d) && decide (d ≤ q.range_end)) || coversDay qs d) := rfl

/-- Structural characterisation of the planning walk from a contract the
walk can emit (`max s r ≤ e` and `max s r ≤ c.delivery_date`), over a
strictly delivery-sorted tail with pairwise-distinct codes: the produced
segments form a nonempty contiguous chain that starts at `max s r`, whose
segments are nonempty and end by `e`, that covers exactly the days from
`max s r` through its last `range_end`, and whose last `range_end` is `e`
whenever some walked contract's delivery date reaches `e`. -/
theorem planWalk_spec (s e : Nat) : ∀ (rest : List Contract) (c : Contract) (r : Nat),
    (c :: rest).Pairwise (fun a b => a.delivery_date < b.delivery_date) →
    (c :: rest).Pairwise (fun a b => a.code ≠ b.code) →
    max s r ≤ e →
    max s r ≤ c.delivery_date →
    planWalk s e (c :: rest) r [] ≠ [] ∧
    headStart (planWalk s e (c :: rest) r []) = max s r ∧
    contiguous (planWalk s e (c :: rest) r []) = true ∧
    max s r ≤ lastEndOf (planWalk s e (c :: rest) r []) ∧
    (∀ q ∈ planWalk s e (c :: rest) r [], q.range_start ≤ q.range_end ∧ q.range_end ≤ e) ∧
    (∀ d : Nat, coversDay (planWalk s e (c :: rest) r []) d = true ↔
      max s r ≤ d ∧ d ≤ lastEndOf (planWalk s e (c :: rest) r [])) ∧
    ((∃ c2 ∈ c :: rest, e ≤ c2.delivery_date) →
      lastEndOf (planWalk s e (c :: rest) r []) = e) := by
  intro rest
  induction rest with
  | nil =>
    intro c r hsort hcode hse hcd
    have hemit : max s r ≤ min e c.delivery_date := le_min hse hcd
    rw [planWalk_cons]
    by_cases hbrk : e ≤ c.delivery_date
    · rw [if_pos hbrk, if_pos hemit, upsertSegment_nil]
      have hmin : min e c.delivery_date = e := Nat.min_eq_left hbrk
      rw [hmin]
      refine ⟨by simp, rfl, rfl, hse, ?_, ?_, fun _ => rfl⟩
      · intro q hq
        rcases List.mem_singleton.mp hq with rfl
        exact ⟨hse, le_refl e⟩
      · intro d
        exact coversDay_singleton_iff
    · rw [if_neg hbrk, if_pos hemit, upsertSegment_nil]
      have hlt : c.delivery_date < e := Nat.lt_of_not_le hbrk
      have hmin : min e c.delivery_date = c.delivery_date :=
        Nat.min_eq_right (Nat.le_of_lt hlt)
      rw [hmin]
      refine ⟨by simp [planWalk], ?_, ?_, ?_, ?_, ?_, ?_⟩
      · rfl
      · rfl
      · exact hcd
      · intro q hq
        rcases List.mem_singleton.mp hq with rfl
        exact ⟨hcd, Nat.le_of_lt hlt⟩
      · intro d
        exact coversDay_singleton_iff
      · rintro ⟨cx, hcx, hex⟩
        rcases List.mem_singleton.mp hcx with rfl
        exact absurd hex hbrk
  | cons c2 rest2 ih =>
    intro c r hsort hcode hse hcd
    have hemit : max s r ≤ min e c.delivery_date := le_min hse hcd
    rw [planWalk_cons]
    by_cases hbrk : e ≤ c.delivery_date
    · rw [if_pos hbrk, if_pos hemit, upsertSegment_nil]
      have hmin : min e c.delivery_date = e := Nat.min_eq_left hbrk
      rw [hmin]
      refine ⟨by simp, rfl, rfl, hse, ?_, ?_, fun _ => rfl⟩
      · intro q hq
        rcases List.mem_singleton.mp hq with rfl
        exact ⟨hse, le_refl e⟩
      · intro d
        exact coversDay_singleton_iff
    · rw [if_neg hbrk, if_pos hemit, upsertSegment_nil]
      have hlt : c.delivery_date < e := Nat.lt_of_not_le hbrk
      have hmin : min e c.delivery_date = c.delivery_date :=
        Nat.min_eq_right (Nat.le_of_lt hlt)
      rw [hmin]
      rcases List.pairwise_cons.mp hsort with ⟨hsort1, hsort2⟩
      rcases List.pairwise_cons.mp hcode with ⟨hcode1, hcode2⟩
      have hsd : s ≤ c.delivery_date := le_trans (Nat.le_max_left s r) hcd
      have hmax2 : max s (c.delivery_date + 1) = c.delivery_date + 1 :=
        Nat.max_eq_right (Nat.le_succ_of_le hsd)
      have hse2 : max s (c.delivery_date + 1) ≤ e := by omega
      have hcd2 : max s (c.delivery_date + 1) ≤ c2.delivery_date := by
        have := hsort1 c2 (List.mem_cons_self c2 rest2)
        omega
      have hfre : ∀ q ∈ [(⟨c.code, max s r, c.delivery_date⟩ : QuerySegment)],
          ∀ x ∈ c2 :: rest2, q.code ≠ x.code := by
        intro q hq x hx
        rcases List.mem_singleton.mp hq with rfl
        exact hcode1 x hx
      rw [planWalk_append s e (c2 :: rest2) (c.delivery_date + 1) _ hcode2 hfre]
      rcases ih c2 (c.delivery_date + 1) hsort2 hcode2 hse2 hcd2 with
        ⟨hne2, hhead2, hcont2, hlast2, hseg2, hcov2, hreach2⟩
      rw [hmax2] at hhead2 hlast2 hcov2
      cases hsegs2 : planWalk s e (c2 :: rest2) (c.delivery_date + 1) [] with
      | nil => exact absurd hsegs2 hne2
      | cons q1 qs1 =>
        rw [hsegs2] at hhead2 hcont2 hlast2 hseg2 hcov2 hreach2
        have hq1 : q1.range_start = c.delivery_date + 1 := hhead2
        have hlcons : lastEndOf (⟨c.code, max s r, c.delivery_date⟩ :: q1 :: qs1) =
            lastEndOf (q1 :: qs1) := rfl
        simp only [List.singleton_append]
        refine ⟨by simp, rfl, ?_, ?_, ?_, ?_, ?_⟩
        · show ((c.delivery_date + 1 == q1.range_start) && contiguous (q1 :: qs1)) = true
          rw [hq1, hcont2]
          simp
        · rw [hlcons]
          exact le_trans hcd (le_trans (Nat.le_succ _) hlast2)
        · intro q hq
          rcases List.mem_cons.mp hq with rfl | hq2
          · exact ⟨hcd, Nat.le_of_lt hlt⟩
          · exact hseg2 q hq2
        · intro d
          rw [hlcons, coversDay_cons]
          constructor
          · intro hd
            rcases Bool.or_eq_true _ _ |>.mp hd with h1 | h2
            · rcases Bool.and_eq_true _ _ |>.mp h1 with ⟨ha, hb⟩
              have ha2 : max s r ≤ d := of_decide_eq_true ha
              have hb2 : d ≤ c.delivery_date := of_decide_eq_true hb
              have : c.delivery_date + 1 ≤ lastEndOf (q1 :: qs1) := hlast2
              exact ⟨ha2, by omega⟩
            · have := (hcov2 d).mp h2
              refine ⟨?_, this.2⟩
              have h3 : c.delivery_date + 1 ≤ d := this.1
              omega
          · rintro ⟨hd1, hd2⟩
            by_cases hdc : d ≤ c.delivery_date
            · apply Bool.or_eq_true _ _ |>.mpr
              left
              apply Bool.and_eq_true _ _ |>.mpr
              exact ⟨decide_eq_true hd1, decide_eq_true hdc⟩
            · apply Bool.or_eq_true _ _ |>.mpr
              right
              apply (hcov2 d).mpr
              have : c.delivery_date + 1 ≤ d := by omega
              exact ⟨this, hd2⟩
        · rintro ⟨cx, hcx, hex⟩
          rw [hlcons]
          rcases List.mem_cons.mp hcx with rfl | hcx2
          · exact absurd hex hbrk
          · exact hreach2 ⟨cx, hcx2, hex⟩

/-- The head of a `dropWhile` result fails the predicate. -/
theorem dropWhile_head_false (p : α → Bool) : ∀ (l : List α) (x : α) (xs : List α),
    l.dropWhile p = x :: xs → p x = false := by
  intro l
  induction l with
  | nil => intro x xs h; cases h
  | cons a as ih =>
    intro x xs h
    by_cases hpa : p a
    · rw [List.dropWhile_cons_of_pos hpa] at h
      exact ih x xs h
    · rw [List.dropWhile_cons_of_neg hpa] at h
      cases h
      simpa using hpa

/-- On an all-regular, strictly delivery-sorted catalog whose `dropWhile`
suffix is nonempty, `buildQueryPlan` is the planning walk over that
suffix. -/
theorem buildQueryPlan_eq (contracts : List Contract) (s e : Nat)
    (hreg : ∀ c ∈ contracts, isRegular c = true)
    (hsorted : contracts.Pairwise (fun a b => a.delivery_date < b.delivery_date))
    (c0 : Contract) (rem : List Contract)
    (hsuffix : contracts.dropWhile (fun c => decide (c.delivery_date < s)) = c0 :: rem) :
    buildQueryPlan contracts s e = some (planWalk s e (c0 :: rem) s []) := by
  have hfilter : contracts.filter isRegular = contracts := List.filter_eq_self.mpr hreg
  have hsort_id : sortByDelivery contracts = contracts :=
    sortByDelivery_sorted_id (hsorted.imp (fun h => Nat.le_of_lt h))
  have hne : contracts ≠ [] := by
    intro h
    rw [h] at hsuffix
    cases hsuffix
  have hie : contracts.isEmpty = false := by
    cases contracts with
    | nil => exact absurd rfl hne
    | cons a as => rfl
  unfold buildQueryPlan
  rw [hfilter, hsort_id, hie, hsuffix]
  rfl

/-- `buildQueryPlan` fails when the regular subset is empty. -/
theorem buildQueryPlan_none_of_empty (contracts : List Contract) (s e : Nat)
    (h : contracts.filter isRegular = []) : buildQueryPlan contracts s e = none := by
  unfold buildQueryPlan
  rw [h]
  rfl

/-- `buildQueryPlan` fails when every regular contract expires before the
requested start. -/
theorem buildQueryPlan_none_of_stale (contracts : List Contract) (s e : Nat)
    (h : ∀ c ∈ contracts.filter isRegular, c.delivery_date < s) :
    buildQueryPlan contracts s e = none := by
  have hdw : (sortByDelivery (contracts.filter isRegular)).dropWhile
      (fun c => decide (c.delivery_date < s)) = [] := by
    rw [List.dropWhile_eq_nil_iff]
    intro x hx
    exact decide_eq_true (h x (mem_sortByDelivery.mp hx))
  unfold buildQueryPlan
  by_cases hie : (sortByDelivery (contracts.filter isRegular)).isEmpty
  · rw [if_pos hie]
  · rw [if_neg hie, hdw]

/-- On an all-regular, strictly delivery-sorted, distinct-code catalog
with `start ≤ end`, every successful plan is a nonempty contiguous chain
starting at the requested start, with every segment nonempty and ending
by the requested end, that covers exactly the days from the start through
its last `range_end` — and that last `range_end` is the requested end
whenever some contract's delivery date reaches it. -/
theorem buildQueryPlan_chain (contracts : List Contract) (s e : Nat)
    (segs : List QuerySegment)
    (hreg : ∀ c ∈ contracts, isRegular c = true)
    (hsorted : contracts.Pairwise (fun a b => a.delivery_date < b.delivery_date))
    (hcodes : contracts.Pairwise (fun a b => a.code ≠ b.code))
    (hse : s ≤ e)
    (hplan : buildQueryPlan contracts s e = some segs) :
    segs ≠ [] ∧
    headStart segs = s ∧
    contiguous segs = true ∧
    (∀ q ∈ segs, q.range_start ≤ q.range_end ∧ q.range_end ≤ e) ∧
    (∀ d : Nat, coversDay segs d = true ↔ (s ≤ d ∧ d ≤ lastEndOf segs)) ∧
    ((∃ c ∈ contracts, e ≤ c.delivery_date) → lastEndOf segs = e) := by
  cases hsuffix : contracts.dropWhile (fun c => decide (c.delivery_date < s)) with
  | nil =>
    exfalso
    have hfilter : contracts.filter isRegular = contracts := List.filter_eq_self.mpr hreg
    have hsort_id : sortByDelivery contracts = contracts :=
      sortByDelivery_sorted_id (hsorted.imp (fun h => Nat.le_of_lt h))
    have hnone : buildQueryPlan contracts s e = none := by
      unfold buildQueryPlan
      rw [hfilter, hsort_id, hsuffix]
      by_cases hie : contracts.isEmpty
      · rw [if_pos hie]
      · rw [if_neg hie]
    rw [hnone] at hplan
    cases hplan
  | cons c0 rem =>
    have heq := buildQueryPlan_eq contracts s e hreg hsorted c0 rem hsuffix
    rw [heq] at hplan
    have hsegs : segs = planWalk s e (c0 :: rem) s [] := by
      injection hplan with h
      exact h.symm
    have hsub : (c0 :: rem).Sublist contracts := by
      rw [← hsuffix]
      exact List.dropWhile_sublist _
    have hsorted2 := List.Pairwise.sublist hsub hsorted
    have hcodes2 := List.Pairwise.sublist hsub hcodes
    have hd0 : s ≤ c0.delivery_date := by
      have := dropWhile_head_false (fun c => decide (c.delivery_date < s)) contracts c0 rem hsuffix
      simp only [decide_eq_false_iff_not] at this
      omega
    have hspec := planWalk_spec s e rem c0 s hsorted2 hcodes2
      (by rw [Nat.max_self]; exact hse) (by rw [Nat.max_self]; exact hd0)
    rw [Nat.max_self] at hspec
    rcases hspec with ⟨hne, hhead, hcont, _, hseg, hcov, hreach2⟩
    rw [hsegs]
    refine ⟨hne, hhead, hcont, hseg, hcov, ?_⟩
    rintro ⟨cx, hcx, hex⟩
    apply hreach2
    have hpredx : (fun c => decide (c.delivery_date < s)) cx = false := by
      simp only [decide_eq_false_iff_not]
      omega
    have hmemx := mem_dropWhile_of_pred_false
      (fun c => decide (c.delivery_date < s)) contracts cx hcx hpredx
    rw [hsuffix] at hmemx
    exact ⟨cx, hmemx, hex⟩

/-- C1 (amended): for every list of regular, non-overlapping contracts
sorted by delivery date (with the data model's distinct codes) and every
request `[start, end]` with `start ≤ end` for which planning succeeds, the
ordered query segments are contiguous and non-overlapping — each
`range_end` is one day before the next `range_start` — and, provided some
contract's delivery date is on or after `end`, the union of the segment
ranges equals exactly `[start, end]` (without such a contract the union
falls short of `end`, as the counterexample shows). -/
theorem plan_contiguous_and_covers (contracts : List Contract) (s e : Nat)
    (segs : List QuerySegment)
    (hreg : ∀ c ∈ contracts, isRegular c = true)
    (hsorted : contracts.Pairwise (fun a b => a.delivery_date < b.delivery_date))
    (hcodes : contracts.Pairwise (fun a b => a.code ≠ b.code))
    (hse : s ≤ e)
    (hplan : buildQueryPlan contracts s e = some segs) :
    contiguous segs = true ∧
    ((∃ c ∈ contracts, e ≤ c.delivery_date) →
      ∀ d : Nat, coversDay segs d = true ↔ (s ≤ d ∧ d ≤ e)) := by
  rcases buildQueryPlan_chain contracts s e segs hreg hsorted hcodes hse hplan with
    ⟨_, _, hcont, _, hcov, hreach⟩
  refine ⟨hcont, fun hx d => ?_⟩
  rw [hcov d, hreach hx]

/-- Witness for C1 (amended) at a two-contract catalog with deliveries on
days 10 and 20 and the request `[5, 15]`: the plan is the contiguous pair
`[5, 10]`, `[11, 15]` and day 12 is covered. -/
theorem plan_contiguous_and_covers_witness :
    contiguous
      [ { code := "TXFA1", range_start := 5, range_end := 10 }
      , { code := "TXFB1", range_start := 11, range_end := 15 } ] = true ∧
    (coversDay
      [ { code := "TXFA1", range_start := 5, range_end := 10 }
      , { code := "TXFB1", range_start := 11, range_end := 15 } ] 12 = true ↔
      (5 ≤ 12 ∧ 12 ≤ 15)) :=
  ⟨(plan_contiguous_and_covers
      [ { code := "TXFA1", delivery_date := 10 }, { code := "TXFB1", delivery_date := 20 } ]
      5 15 _ (by decide) (by decide) (by decide) (by decide) (by decide)).1,
   (plan_contiguous_and_covers
      [ { code := "TXFA1", delivery_date := 10 }, { code := "TXFB1", delivery_date := 20 } ]
      5 15 _ (by decide) (by decide) (by decide) (by decide) (by decide)).2
     ⟨{ code := "TXFB1", delivery_date := 20 }, by decide, by decide⟩ 12⟩

/-- When `start ≤ end` and some regular contract's delivery date reaches
the start, planning succeeds and emits at least one segment. -/
theorem buildQueryPlan_some_nonempty (contracts : List Contract) (s e : Nat)
    (hse : s ≤ e)
    (hex : ∃ c ∈ contracts.filter isRegular, s ≤ c.delivery_date) :
    ∃ segs, buildQueryPlan contracts s e = some segs ∧ segs ≠ [] := by
  rcases hex with ⟨c1, hc1, hd1⟩
  have hc1s : c1 ∈ sortByDelivery (contracts.filter isRegular) := mem_sortByDelivery.mpr hc1
  have hpred : (fun c => decide (c.delivery_date < s)) c1 = false := by
    simp only [decide_eq_false_iff_not]
    omega
  have hmem := mem_dropWhile_of_pred_false (fun c => decide (c.delivery_date < s))
    (sortByDelivery (contracts.filter isRegular)) c1 hc1s hpred
  cases hsuffix : (sortByDelivery (contracts.filter isRegular)).dropWhile
      (fun c => decide (c.delivery_date < s)) with
  | nil => rw [hsuffix] at hmem; cases hmem
  | cons c0 rem =>
    have hie : (sortByDelivery (contracts.filter isRegular)).isEmpty = false := by
      cases hall : sortByDelivery (contracts.filter isRegular) with
      | nil => rw [hall] at hc1s; cases hc1s
      | cons a as => rfl
    have hplan : buildQueryPlan contracts s e = some (planWalk s e (c0 :: rem) s []) := by
      unfold buildQueryPlan
      rw [hie, hsuffix]
      rfl
    have hd0 : s ≤ c0.delivery_date := by
      have := dropWhile_head_false (fun c => decide (c.delivery_date < s))
        (sortByDelivery (contracts.filter isRegular)) c0 rem hsuffix
      simp only [decide_eq_false_iff_not] at this
      omega
    have hemit : max s s ≤ min e c0.delivery_date := by
      rw [Nat.max_self]
      exact le_min hse hd0
    have hlen : 1 ≤ (planWalk s e (c0 :: rem) s []).length := by
      rw [planWalk_cons]
      by_cases hbrk : e ≤ c0.delivery_date
      · rw [if_pos hbrk, if_pos hemit, upsertSegment_nil]
        simp
      · rw [if_neg hbrk, if_pos hemit, upsertSegment_nil]
        have := planWalk_length_mono s e rem (c0.delivery_date + 1)
          [⟨c0.code, max s s, min e c0.delivery_date⟩]
        simpa using this
    refine ⟨planWalk s e (c0 :: rem) s [], hplan, ?_⟩
    intro hnil
    rw [hnil] at hlen
    simp at hlen

/-- C8 (amended): planning fails with `NoApplicableContract` — producing
no plan and attempting no fetch — exactly when the regular subset is
empty or no regular contract's delivery date is on or after the requested
start; in all other cases with `start ≤ end` planning proceeds and
produces at least one segment (for `start > end` planning can proceed yet
produce zero segments, as the counterexample shows). -/
theorem plan_failure_and_success (contracts : List Contract) (s e : Nat) :
    ((contracts.filter isRegular = [] ∨
        ∀ c ∈ contracts.filter isRegular, c.delivery_date < s) →
      buildQueryPlan contracts s e = none ∧
      ∀ script : String → Nat → Nat → Except Unit (List TickRow),
        fetch_continuous_data script contracts s e = none) ∧
    (s ≤ e → (∃ c ∈ contracts.filter isRegular, s ≤ c.delivery_date) →
      ∃ segs, buildQueryPlan contracts s e = some segs ∧ segs ≠ []) := by
  constructor
  · intro hfail
    have hnone : buildQueryPlan contracts s e = none := by
      rcases hfail with h | h
      · exact buildQueryPlan_none_of_empty contracts s e h
      · exact buildQueryPlan_none_of_stale contracts s e h
    refine ⟨hnone, fun script => ?_⟩
    unfold fetch_continuous_data
    rw [hnone]
  · intro hse hex
    exact buildQueryPlan_some_nonempty contracts s e hse hex

/-- Witness for C8 (amended): a spread-only catalog fails planning and
fetches nothing; a regular catalog reaching the start with `start ≤ end`
yields a nonempty plan. -/
theorem plan_failure_and_success_witness :
    (buildQueryPlan [{ code := "TXFR1", delivery_date := 5 }] 1 3 = none ∧
      fetch_continuous_data okScript [{ code := "TXFR1", delivery_date := 5 }] 1 3 = none) ∧
    ∃ segs, buildQueryPlan [{ code := "TXF202401", delivery_date := 5 }] 1 3 = some segs ∧
      segs ≠ [] :=
  ⟨⟨((plan_failure_and_success [{ code := "TXFR1", delivery_date := 5 }] 1 3).1
      (Or.inl (by decide))).1,
    ((plan_failure_and_success [{ code := "TXFR1", delivery_date := 5 }] 1 3).1
      (Or.inl (by decide))).2 okScript⟩,
   (plan_failure_and_success [{ code := "TXF202401", delivery_date := 5 }] 1 3).2
     (by decide) ⟨{ code := "TXF202401", delivery_date := 5 }, by decide, by decide⟩⟩

/-- The first attempt of a run over a plan whose first segment is
nonempty is that segment's first day. -/
theorem runPlan_head_attempt (script : String → Nat → Nat → Except Unit (List TickRow))
    (q0 : QuerySegment) (qs : List QuerySegment) (h : q0.range_start ≤ q0.range_end) :
    (runPlan script (q0 :: qs)).attempts.head? = some (q0.code, q0.range_start) := by
  have hday : dayList q0.range_start q0.range_end =
      q0.range_start :: List.range' (q0.range_start + 1) (q0.range_end - q0.range_start) := by
    unfold dayList
    have h2 : q0.range_end + 1 - q0.range_start = (q0.range_end - q0.range_start) + 1 := by
      omega
    rw [h2, List.range'_succ]
  show ((runSegmentDays script q0.code (dayList q0.range_start q0.range_end)).attempts ++
    (runPlan script qs).attempts).head? = some (q0.code, q0.range_start)
  rw [runSegmentDays_attempts, hday]
  rfl

/-- Every attempted day of a run lies within its segment bound. -/
theorem runPlan_attempts_day_le (script : String → Nat → Nat → Except Unit (List TickRow))
    (e : Nat) : ∀ segs : List QuerySegment,
    (∀ q ∈ segs, q.range_end ≤ e) →
    ∀ p ∈ (runPlan script segs).attempts, p.2 ≤ e := by
  intro segs
  induction segs with
  | nil => intro _ p hp; cases hp
  | cons q qs ih =>
    intro hq p hp
    have hp2 : p ∈ (runSegmentDays script q.code (dayList q.range_start q.range_end)).attempts ++
        (runPlan script qs).attempts := hp
    rw [runSegmentDays_attempts] at hp2
    rcases List.mem_append.mp hp2 with h1 | h2
    · rcases List.mem_map.mp h1 with ⟨d, hd, rfl⟩
      simp only [dayList] at hd
      have hd2 := mem_range1.mp hd
      have hqe := hq q (List.mem_cons_self q qs)
      show d ≤ e
      omega
    · exact ih (fun q2 hq2 => hq q2 (List.mem_cons_of_mem q hq2)) p h2

/-- Every day covered by some segment of the plan is attempted. -/
theorem runPlan_attempts_day_mem (script : String → Nat → Nat → Except Unit (List TickRow)) :
    ∀ (segs : List QuerySegment) (q : QuerySegment) (d : Nat),
    q ∈ segs → q.range_start ≤ d → d ≤ q.range_end →
    (runPlan script segs).attempts.any (fun p => p.2 == d) = true := by
  intro segs
  induction segs with
  | nil => intro q d hq _ _; cases hq
  | cons q0 qs ih =>
    intro q d hq h1 h2
    have hatt : (runPlan script (q0 :: qs)).attempts =
        (dayList q0.range_start q0.range_end).map (fun x => (q0.code, x)) ++
          (runPlan script qs).attempts := by
      show (runSegmentDays script q0.code (dayList q0.range_start q0.range_end)).attempts ++
        (runPlan script qs).attempts = _
      rw [runSegmentDays_attempts]
    rw [hatt, List.any_append]
    rcases List.mem_cons.mp hq with rfl | hq2
    · apply Bool.or_eq_true _ _ |>.mpr
      left
      apply List.any_eq_true.mpr
      refine ⟨(q.code, d), ?_, by simp⟩
      apply List.mem_map.mpr
      refine ⟨d, ?_, rfl⟩
      simp only [dayList]
      rw [mem_range1]
      omega
    · apply Bool.or_eq_true _ _ |>.mpr
      right
      exact ih q d hq2 h1 h2

/-- C4 (amended): `fetch_continuous_data` has no checkpoint input, so no
checkpoint date can shift its starting day: for a regular, sorted,
non-overlapping catalog with `start ≤ end`, on every successful plan the
run's first attempted day is always the originally requested start, every
attempted day stays within the originally requested end, and, provided
some contract's delivery date is on or after the end, every day from
start through end is attempted. -/
theorem run_starts_at_requested_start
    (script : String → Nat → Nat → Except Unit (List TickRow))
    (contracts : List Contract) (s e : Nat) (segs : List QuerySegment)
    (hreg : ∀ c ∈ contracts, isRegular c = true)
    (hsorted : contracts.Pairwise (fun a b => a.delivery_date < b.delivery_date))
    (hcodes : contracts.Pairwise (fun a b => a.code ≠ b.code))
    (hse : s ≤ e)
    (hplan : buildQueryPlan contracts s e = some segs) :
    (runPlan script segs).attempts.head?.map Prod.snd = some s ∧
    (∀ p ∈ (runPlan script segs).attempts, p.2 ≤ e) ∧
    ((∃ c ∈ contracts, e ≤ c.delivery_date) →
      ∀ d : Nat, s ≤ d → d ≤ e →
        (runPlan script segs).attempts.any (fun p => p.2 == d) = true) := by
  rcases buildQueryPlan_chain contracts s e segs hreg hsorted hcodes hse hplan with
    ⟨hne, hhead, _, hseg, hcov, hreach⟩
  refine ⟨?_, ?_, ?_⟩
  · cases segs with
    | nil => exact absurd rfl hne
    | cons q0 qs =>
      have hq0 : q0.range_start = s := hhead
      have hq0le : q0.range_start ≤ q0.range_end := (hseg q0 (List.mem_cons_self q0 qs)).1
      rw [runPlan_head_attempt script q0 qs hq0le, hq0]
      rfl
  · exact runPlan_attempts_day_le script e segs (fun q hq => (hseg q hq).2)
  · intro hx d hd1 hd2
    have hd3 : d ≤ lastEndOf segs := by
      rw [hreach hx]
      exact hd2
    have hcd : coversDay segs d = true := (hcov d).mpr ⟨hd1, hd3⟩
    rcases List.any_eq_true.mp hcd with ⟨q, hq, hcond⟩
    rcases Bool.and_eq_true _ _ |>.mp hcond with ⟨ha, hb⟩
    exact runPlan_attempts_day_mem script segs q d hq
      (of_decide_eq_true ha) (of_decide_eq_true hb)

/-- Witness for C4 (amended) at a one-contract catalog (delivery day 30)
and the request `[10, 20]`: the run's first attempted day is 10 and day
15 is attempted. -/
theorem run_starts_at_requested_start_witness :
    (runPlan okScript
      [{ code := "TXFA4", range_start := 10, range_end := 20 }]).attempts.head?.map Prod.snd =
      some 10 ∧
    (runPlan okScript
      [{ code := "TXFA4", range_start := 10, range_end := 20 }]).attempts.any
        (fun p => p.2 == 15) = true :=
  ⟨(run_starts_at_requested_start okScript [{ code := "TXFA4", delivery_date := 30 }] 10 20
      [{ code := "TXFA4", range_start := 10, range_end := 20 }]
      (by decide) (by decide) (by decide) (by decide) (by decide)).1,
   (run_starts_at_requested_start okScript [{ code := "TXFA4", delivery_date := 30 }] 10 20
      [{ code := "TXFA4", range_start := 10, range_end := 20 }]
      (by decide) (by decide) (by decide) (by decide) (by decide)).2.2
      ⟨{ code := "TXFA4", delivery_date := 30 }, by decide, by decide⟩ 15
      (by decide) (by decide)⟩
